import Mathlib

/-!
A shallow embedding, in Lean 4, of the memory subsystem of the
`nbn-agentic-ai-memory-rag` repository: the classes `UtilityRAG` and
`LMRRAG` of `rag.py`, and the resume check of `Agent.reflect` in
`agents.py`.

Modelling conventions, stated once here:

* Embedding vectors are lists of rationals (the Python code works with
  numpy float arrays); texts are `String`s and dates are `ℤ` (Python
  `int`).  The embedder is an external service
  (`embedding.py` calls the OpenAI API), so it enters every operation
  as an explicit function argument `embed : String → List ℚ`.

* The cosine similarity computed on line 132 of `rag.py`,
  `np.dot(e, q) / (np.linalg.norm(e) * np.linalg.norm(q))`, is kept in
  the symbolic form `SimVal.mk (dot e q) (normSq e * normSq q)`, whose
  float value is `num / Real.sqrt denSq`.  The comparison used by the
  subsequent `np.argsort` is realised as a decidable total preorder
  `SimVal.Le` on those pairs (defined by cross-multiplication, so no
  division is needed) that agrees with numpy's sort order on the
  represented float values: `-inf`, then finite values in numeric
  order, then `+inf`, then NaN last — a zero denominator makes the
  division `0/0`, i.e. NaN, since a zero norm product forces a zero
  dot product.

* `np.argsort` (default kind) is modelled as a stable ascending sort of
  the index list: numpy's introsort runs plain insertion sort — which
  is stable — on arrays of fewer than 16 elements, so the model is
  exact on the concrete scenarios of the spec; Python's
  `sorted(..., reverse=True)` on line 140 is documented stable and is
  modelled the same way with the flipped date comparison.  Both are
  realised by `List.insertionSort`, Mathlib's stable sort.

* `pickle` round-trips the stored lists of texts, vectors and dates
  exactly, and is deterministic on them; a persisted blob is therefore
  modelled by the record `StoreData` it contains, and a missing or
  unreadable file by `none : Option StoreData`.  A raised exception is
  a `none` result.
-/

namespace AgenticRag

open List

/-- The dict pickled by `UtilityRAG.save_to_file` (keys `memories`,
`memory_embeddings`, `memory_dates`). -/
structure StoreData where
  memories : List String
  memory_embeddings : List (List ℚ)
  memory_dates : List ℤ
deriving DecidableEq

/-- In-memory state of a `UtilityRAG` instance: the three parallel
lists set up by `UtilityRAG.__init__`.  The `embedding_model` attribute
is only ever used through `embed` calls and is passed separately. -/
structure UtilityRAG where
  memories : List String
  memory_embeddings : List (List ℚ)
  memory_dates : List ℤ
deriving DecidableEq

/-- `UtilityRAG.__init__`: all three lists start empty. -/
def UtilityRAG.init : UtilityRAG := ⟨[], [], []⟩

/-- One iteration of the loop body of `UtilityRAG.add_memories`: embed
the text and append text, embedding and date to the three lists. -/
def UtilityRAG.addOne (embed : String → List ℚ) (s : UtilityRAG)
    (text : String) (date : ℤ) : UtilityRAG :=
  { s with
    memories := s.memories ++ [text]
    memory_embeddings := s.memory_embeddings ++ [embed text]
    memory_dates := s.memory_dates ++ [date] }

/-- `UtilityRAG.add_memories(texts, dates)`:
`for text, date in zip(texts, dates): ...` — Python's `zip` stops at
the shorter sequence, so unmatched tail elements are dropped silently;
the method performs no length check and raises nothing. -/
def UtilityRAG.add_memories (embed : String → List ℚ) (s : UtilityRAG)
    (texts : List String) (dates : List ℤ) : UtilityRAG :=
  (texts.zip dates).foldl (fun st p => UtilityRAG.addOne embed st p.1 p.2) s

/-- Mathematical dot product of two vectors (`np.dot`); the embedder
produces vectors of one fixed dimension. -/
def dot : List ℚ → List ℚ → ℚ
  | a :: as, b :: bs => a * b + dot as bs
  | _, _ => 0

/-- Squared euclidean norm, `np.linalg.norm v ^ 2`. -/
def normSq (v : List ℚ) : ℚ := dot v v

/-- One entry of the `similarities` array of
`UtilityRAG.retrieve_memories`, kept symbolically: the float value is
`num / Real.sqrt denSq`.  `denSq = 0` with `num = 0` is IEEE
`0 / 0 = NaN`. -/
structure SimVal where
  num : ℚ
  denSq : ℚ
deriving DecidableEq

/-- Line 132 of `rag.py` for one stored embedding `e` and the query
embedding `q`: `np.dot(e, q) / (np.linalg.norm(e) * np.linalg.norm(q))`
as the pair (numerator, squared denominator). -/
def cosSim (e q : List ℚ) : SimVal := ⟨dot e q, normSq e * normSq q⟩

/-- Tier of a similarity value in numpy's ascending sort order:
`-inf` (-1) < finite (0) < `+inf` (1) < NaN (2); numpy sorts NaNs after
everything else.  A negative `denSq` (impossible for a product of
squared norms, but the type allows it) would be the square root of a
negative number, i.e. NaN as well. -/
def SimVal.tier (s : SimVal) : ℤ :=
  if s.denSq < 0 then 2
  else if s.denSq = 0 then (if s.num = 0 then 2 else if 0 < s.num then 1 else -1)
  else 0

/-- Ascending comparison of two similarity values, as used by
`np.argsort`.  Finite values (`denSq > 0`) are compared through the
strictly increasing map `x ↦ x * |x|`:
`(num / Real.sqrt denSq) * |num / Real.sqrt denSq| = num * |num| / denSq`,
and the division is cleared by cross-multiplying with the positive
denominators, so the comparison is rational arithmetic only.  Values of
one non-finite tier are mutually tied, as in numpy's sort, where all
NaNs are interchangeable and all infinities of one sign are equal. -/
def SimVal.Le (a b : SimVal) : Prop :=
  a.tier < b.tier ∨
    (a.tier = b.tier ∧
      (a.tier = 0 → a.num * |a.num| * b.denSq ≤ b.num * |b.num| * a.denSq))

instance : DecidableRel SimVal.Le := fun a b => by
  unfold SimVal.Le; infer_instance

/-- The index comparison performed by `np.argsort`: index `i` sorts no
later than index `j` when the similarity at `i` is no greater. -/
def SimLeAt (sims : List SimVal) (i j : ℕ) : Prop :=
  SimVal.Le (sims.getD i ⟨0, 0⟩) (sims.getD j ⟨0, 0⟩)

instance : DecidableRel (SimLeAt sims) := fun i j => by
  unfold SimLeAt; infer_instance

/-- `np.argsort(similarities)` (line 137): the list of indices that
sorts the array ascending, modelled as a stable sort of
`[0, ..., len - 1]`; ties therefore stay in ascending index order. -/
def argsort (sims : List SimVal) : List ℕ :=
  (List.range sims.length).insertionSort (SimLeAt sims)

/-- Python slice `lst[-k:]`: for `k > 0` the last `min k lst.length`
elements; for `k = 0` the slice `lst[0:]`, i.e. the whole list. -/
def takeLastSlice (l : List α) (k : ℕ) : List α :=
  if k = 0 then l else l.drop (l.length - k)

/-- Line 137 of `rag.py`:
`top_k_indices = np.argsort(similarities)[-k:][::-1]`. -/
def top_k_indices (sims : List SimVal) (k : ℕ) : List ℕ :=
  (takeLastSlice (argsort sims) k).reverse

/-- The date comparison of line 140, `key=lambda i: self.memory_dates[i]`
with `reverse=True`: `i` sorts no later than `j` when its date is no
smaller. -/
def DateGe (dates : List ℤ) (i j : ℕ) : Prop :=
  dates.getD j 0 ≤ dates.getD i 0

instance : DecidableRel (DateGe dates) := fun i j => by
  unfold DateGe; infer_instance

/-- Line 140 of `rag.py`:
`sorted(top_k_indices, key=lambda i: self.memory_dates[i], reverse=True)[:n]`;
Python's `sorted` is stable, also under `reverse=True`. -/
def top_n_indices (sims : List SimVal) (dates : List ℤ) (n k : ℕ) : List ℕ :=
  ((top_k_indices sims k).insertionSort (DateGe dates)).take n

/-- `UtilityRAG.retrieve_memories(query_text, n, k)` with the default
`just_text=True` (the form every caller in the repository uses),
projected to the returned texts. -/
def UtilityRAG.retrieve_memories (embed : String → List ℚ) (s : UtilityRAG)
    (query_text : String) (n k : ℕ) : List String :=
  if s.memories.isEmpty then []
  else
    let query_embedding := embed query_text
    let similarities := s.memory_embeddings.map fun e => cosSim e query_embedding
    (top_n_indices similarities s.memory_dates n k).map fun i => s.memories.getD i ""

/-- A call `self.retrieve_memories(...)` observed at the store
interface: the pair (state of `self` after the call, returned texts).
The method body only reads the three lists, so the state component is
the unchanged `s`. -/
def UtilityRAG.retrieveCall (embed : String → List ℚ) (s : UtilityRAG)
    (query_text : String) (n k : ℕ) : UtilityRAG × List String :=
  (s, UtilityRAG.retrieve_memories embed s query_text n k)

/-- `SimVal.Le` is transitive, so index sorting with `SimLeAt` is a
sort by a total preorder.  The finite-tier case clears the positive
squared denominators by cross-multiplication. -/
instance : IsTrans ℕ (SimLeAt sims) := by
  constructor
  intro x y z h1 h2
  have key : ∀ s : SimVal, s.tier = 0 → 0 < s.denSq := by
    intro s hs
    unfold SimVal.tier at hs
    split_ifs at hs with h1 h2 h3 h4 <;>
      first
      | omega
      | exact lt_of_le_of_ne (not_lt.mp h1) (fun he => h2 he.symm)
  unfold SimLeAt SimVal.Le at h1 h2 ⊢
  set a := sims.getD x ⟨0, 0⟩
  set b := sims.getD y ⟨0, 0⟩
  set c := sims.getD z ⟨0, 0⟩
  rcases h1 with h1 | ⟨h1, h1m⟩
  · rcases h2 with h2 | ⟨h2, _⟩
    · exact Or.inl (h1.trans h2)
    · exact Or.inl (h2 ▸ h1)
  · rcases h2 with h2 | ⟨h2, h2m⟩
    · exact Or.inl (h1 ▸ h2)
    · refine Or.inr ⟨h1.trans h2, fun h0 => ?_⟩
      have hda : 0 < a.denSq := key a h0
      have hdb : 0 < b.denSq := key b (h1 ▸ h0)
      have hdc : 0 < c.denSq := key c (h2 ▸ h1 ▸ h0)
      have hab := h1m h0
      have hbc := h2m (h1 ▸ h0)
      have h5 : b.denSq * (a.num * |a.num| * c.denSq) ≤
          b.denSq * (c.num * |c.num| * a.denSq) := by nlinarith
      exact le_of_mul_le_mul_left h5 hdb

/-- `SimVal.Le` is total: tiers are linearly ordered and the
finite-tier comparison is a rational inequality. -/
instance : IsTotal ℕ (SimLeAt sims) := by
  constructor
  intro x y
  unfold SimLeAt SimVal.Le
  set a := sims.getD x ⟨0, 0⟩
  set b := sims.getD y ⟨0, 0⟩
  rcases lt_trichotomy a.tier b.tier with h | h | h
  · exact Or.inl (Or.inl h)
  · rcases le_total (a.num * |a.num| * b.denSq) (b.num * |b.num| * a.denSq) with hm | hm
    · exact Or.inl (Or.inr ⟨h, fun _ => hm⟩)
    · exact Or.inr (Or.inr ⟨h.symm, fun _ => hm⟩)
  · exact Or.inr (Or.inl h)

instance : IsTrans ℕ (DateGe dates) :=
  ⟨fun _ _ _ h1 h2 => le_trans h2 h1⟩

instance : IsTotal ℕ (DateGe dates) :=
  ⟨fun _ _ => le_total _ _⟩

/-- `UtilityRAG.save_to_file`: pickle the dict of the three lists. -/
def UtilityRAG.save_to_file (s : UtilityRAG) : StoreData :=
  ⟨s.memories, s.memory_embeddings, s.memory_dates⟩

/-- `UtilityRAG.load_from_file`: unpickle the blob and overwrite the
three lists; a missing or unreadable file raises (`none`).  No embedder
is involved: the stored vectors are taken verbatim. -/
def UtilityRAG.load_from_file (blob : Option StoreData) (s : UtilityRAG) :
    Option UtilityRAG :=
  match blob with
  | none => none
  | some d => some { s with
      memories := d.memories
      memory_embeddings := d.memory_embeddings
      memory_dates := d.memory_dates }

/-- A directory holding the three blobs written by
`LMRRAG.save_to_file`: `facts.pkl`, `reflections.pkl`,
`deep_reflections.pkl`.  `none` is a missing or unreadable file. -/
structure RagDir where
  facts_pkl : Option StoreData
  reflections_pkl : Option StoreData
  deep_reflections_pkl : Option StoreData
deriving DecidableEq

/-- In-memory state of an `LMRRAG` instance: one `UtilityRAG` per
layer (the `output_dir` attribute only names the default directory and
plays no part in the claims considered here). -/
structure LMRRAG where
  facts : UtilityRAG
  reflections : UtilityRAG
  deep_reflections : UtilityRAG
deriving DecidableEq

/-- `LMRRAG.__init__`: three fresh empty stores. -/
def LMRRAG.init : LMRRAG := ⟨UtilityRAG.init, UtilityRAG.init, UtilityRAG.init⟩

/-- `LMRRAG.save_to_file`: writes all three layers, one blob each. -/
def LMRRAG.save_to_file (m : LMRRAG) : RagDir :=
  ⟨some m.facts.save_to_file, some m.reflections.save_to_file,
    some m.deep_reflections.save_to_file⟩

/-- `LMRRAG.load_from_file`: inside one `try`, load `facts.pkl`, then
`reflections.pkl`, then `deep_reflections.pkl`, assigning each layer as
soon as its blob is read; any exception is caught and `False` is
returned, but assignments already made before the failing read are
kept.  Returns (state after the call, returned boolean). -/
def LMRRAG.load_from_file (m : LMRRAG) (d : RagDir) : LMRRAG × Bool :=
  match UtilityRAG.load_from_file d.facts_pkl m.facts with
  | none => (m, false)
  | some f =>
    match UtilityRAG.load_from_file d.reflections_pkl m.reflections with
    | none => ({ m with facts := f }, false)
    | some r =>
      match UtilityRAG.load_from_file d.deep_reflections_pkl m.deep_reflections with
      | none => ({ m with facts := f, reflections := r }, false)
      | some dr => (⟨f, r, dr⟩, true)

/-- Which generation phases a call to `Agent.reflect` executed (each
records whether the corresponding block of `agents.py` ran at all):
`extract` = the `_generate_facts_and_reflections` calls (lines 97-98),
`memory_adds` = the `add_facts`/`add_reflections` calls (lines
105-108) and the `add_deep_reflections` calls inside
`_process_deep_reflections`, `deep_reflect` = the
`_process_deep_reflections` calls (lines 111-112), `description_update`
= the `_update_descriptions` calls (lines 155-156), `rag_save` = the
`write_and_save` calls (lines 169-170). -/
structure ReflectEffects where
  extract : Bool
  memory_adds : Bool
  deep_reflect : Bool
  description_update : Bool
  rag_save : Bool
deriving DecidableEq

/-- `transcript_dir_json_path` as assembled on lines 71 and 75 of
`agents.py`; both branches of `reflect` return this same path. -/
def transcriptJsonPath (output_dir name : String) (date_int : ℤ) : String :=
  output_dir ++ "/transcripts/" ++ toString date_int ++ "_" ++ name ++
    "_consciousness_reflection_transcript.json"

/-- The resume check of `Agent.reflect` (lines 80-93 of `agents.py`)
and its consequences for the rest of the method, modelled at the
granularity of the phases in `ReflectEffects`.  Inputs: the two
in-memory `LMRRAG`s, the two persisted rag directories for this
session, and the two `*_updated_description.txt` files the short-cut
branch reads (written on lines 159-162 by every completed session,
before the rag blobs; `none` = missing, in which case the `open` on
line 85 or 87 raises and the model returns `none`).  The generation
phases of the full branch involve only external-service calls and file
writes, modelled as succeeding. -/
def Agent.reflect (self_rag counterpart_rag : LMRRAG)
    (rag_output_dir_self rag_output_dir_counter : RagDir)
    (self_desc_file counter_desc_file : Option String)
    (output_dir name : String) (date_int : ℤ) :
    Option (String × ReflectEffects) :=
  let path := transcriptJsonPath output_dir name date_int
  let self_loaded := (self_rag.load_from_file rag_output_dir_self).2
  let counter_loaded := (counterpart_rag.load_from_file rag_output_dir_counter).2
  if self_loaded && counter_loaded then
    match self_desc_file, counter_desc_file with
    | some _, some _ => some (path, ⟨false, false, false, false, false⟩)
    | _, _ => none
  else
    some (path, ⟨true, true, true, true, true⟩)

/-- The parallel-lists shape invariant of `UtilityRAG`, implicit in
`rag.py`: the three lists always have equal length. -/
def UtilityRAG.inv (s : UtilityRAG) : Prop :=
  s.memories.length = s.memory_embeddings.length ∧
  s.memory_embeddings.length = s.memory_dates.length

/-- The similarity step as the SPEC words it (section 4.1 step 2), for
comparison with `cosSim` above: "Guard against zero-vector embeddings
(undefined cosine) by treating a zero-norm denominator as similarity 0
rather than raising".  The guarded value is the finite `0 / 1 = 0`. -/
def cosSimGuarded (e q : List ℚ) : SimVal :=
  if normSq e * normSq q = 0 then ⟨0, 1⟩ else ⟨dot e q, normSq e * normSq q⟩

/-- `UtilityRAG.retrieve_memories` with the spec's guarded similarity
substituted for the unguarded one, all else equal; used to compare the
code's behaviour with the spec's. -/
def UtilityRAG.retrieve_memories_guarded (embed : String → List ℚ) (s : UtilityRAG)
    (query_text : String) (n k : ℕ) : List String :=
  if s.memories.isEmpty then []
  else
    let query_embedding := embed query_text
    let similarities := s.memory_embeddings.map fun e => cosSimGuarded e query_embedding
    (top_n_indices similarities s.memory_dates n k).map fun i => s.memories.getD i ""

/-! ### Helper lemmas about the retrieval pipeline -/

lemma takeLastSlice_sublist (l : List α) (k : ℕ) : takeLastSlice l k <+ l := by
  unfold takeLastSlice
  split
  · exact List.Sublist.refl l
  · exact List.drop_sublist _ l

lemma argsort_perm (sims : List SimVal) :
    argsort sims ~ List.range sims.length :=
  List.perm_insertionSort _ _

lemma argsort_nodup (sims : List SimVal) : (argsort sims).Nodup :=
  (argsort_perm sims).symm.nodup (List.nodup_range _)

lemma mem_argsort (sims : List SimVal) {i : ℕ} :
    i ∈ argsort sims ↔ i < sims.length := by
  rw [(argsort_perm sims).mem_iff, List.mem_range]

lemma top_k_indices_nodup (sims : List SimVal) (k : ℕ) :
    (top_k_indices sims k).Nodup := by
  unfold top_k_indices
  exact List.nodup_reverse.mpr ((takeLastSlice_sublist _ k).nodup (argsort_nodup sims))

lemma mem_top_k_lt {sims : List SimVal} {k i : ℕ}
    (h : i ∈ top_k_indices sims k) : i < sims.length := by
  unfold top_k_indices at h
  rw [List.mem_reverse] at h
  exact (mem_argsort sims).mp ((takeLastSlice_sublist _ k).subset h)

lemma top_n_subset_top_k {sims : List SimVal} {dates : List ℤ} {n k i : ℕ}
    (hi : i ∈ top_n_indices sims dates n k) : i ∈ top_k_indices sims k := by
  unfold top_n_indices at hi
  exact (List.mem_insertionSort _).mp ((List.take_sublist _ _).subset hi)

lemma pair_sublist_range {i j n : ℕ} (hij : i < j) (hj : j < n) :
    [i, j] <+ List.range n := by
  induction n with
  | zero => omega
  | succ n ih =>
    rw [List.range_succ]
    rcases Nat.lt_or_ge j n with h | h
    · exact (ih h).trans (List.sublist_append_left _ _)
    · have hj' : j = n := by omega
      subst hj'
      exact List.Sublist.append
        (List.singleton_sublist.mpr (List.mem_range.mpr hij)) (List.Sublist.refl [j])

lemma pair_mem_drop {l : List ℕ} {i j m : ℕ} (hn : l.Nodup)
    (hp : [i, j] <+ l) (hi : i ∈ l.drop m) : j ∈ l.drop m := by
  rw [← List.take_append_drop m l] at hp
  rcases List.sublist_append_iff.mp hp with ⟨l₁, l₂, heq, hs1, hs2⟩
  rcases l₁ with _ | ⟨x, _ | ⟨y, ys⟩⟩
  · simp only [List.nil_append] at heq
    subst heq
    exact hs2.subset (by simp)
  · simp only [List.cons_append, List.nil_append] at heq
    injection heq with h1 h2
    subst h1
    rw [← h2] at hs2
    exact hs2.subset (by simp)
  · simp only [List.cons_append] at heq
    injection heq with h1 h2
    injection h2 with h3 h4
    subst h1
    have hi' : i ∈ l.take m := hs1.subset (by simp)
    exact ((List.disjoint_take_drop hn le_rfl) hi' hi).elim

lemma pair_sublist_take {l : List ℕ} {i j n : ℕ} (hn : l.Nodup)
    (hp : [i, j] <+ l) (hj : j ∈ l.take n) : [i, j] <+ l.take n := by
  rw [← List.take_append_drop n l] at hp
  rcases List.sublist_append_iff.mp hp with ⟨l₁, l₂, heq, hs1, hs2⟩
  rcases l₁ with _ | ⟨x, _ | ⟨y, ys⟩⟩
  · simp only [List.nil_append] at heq
    subst heq
    have hj' : j ∈ l.drop n := hs2.subset (by simp)
    exact ((List.disjoint_take_drop hn le_rfl) hj hj').elim
  · simp only [List.cons_append, List.nil_append] at heq
    injection heq with h1 h2
    rw [← h2] at hs2
    have hj' : j ∈ l.drop n := hs2.subset (by simp)
    exact ((List.disjoint_take_drop hn le_rfl) hj hj').elim
  · simp only [List.cons_append] at heq
    injection heq with h1 h2
    injection h2 with h3 h4
    have hys : ys = [] := by
      cases ys with
      | nil => rfl
      | cons z zs => simp at h4
    subst h1; subst h3; subst hys
    simpa using hs1

/-- Reflexivity of the similarity comparison at equal values. -/
lemma SimLeAt_of_eq {sims : List SimVal} {i j : ℕ}
    (h : sims.getD i ⟨0, 0⟩ = sims.getD j ⟨0, 0⟩) : SimLeAt sims i j := by
  unfold SimLeAt
  rw [h]
  exact Or.inr ⟨rfl, fun _ => le_rfl⟩

/-- Stability of the candidate-selection step: between two equally
similar records, whenever the earlier-inserted one is selected into
the candidate set, so is the later-inserted one.  The ascending stable
argsort places the earlier index first, and the slice `[-k:]` keeps
the LAST `k` entries, so a tie crossing the selection boundary is
resolved in favour of the later insertion. -/
lemma top_k_stable {sims : List SimVal} {k i j : ℕ} (hij : i < j)
    (hjlen : j < sims.length)
    (heq : sims.getD i ⟨0, 0⟩ = sims.getD j ⟨0, 0⟩)
    (hi : i ∈ top_k_indices sims k) : j ∈ top_k_indices sims k := by
  have hpair : [i, j] <+ argsort sims :=
    List.sublist_insertionSort (List.pairwise_pair.mpr (SimLeAt_of_eq heq))
      (pair_sublist_range hij hjlen)
  unfold top_k_indices takeLastSlice at hi ⊢
  rw [List.mem_reverse] at hi ⊢
  by_cases hk : k = 0
  · rw [if_pos hk]
    exact (mem_argsort sims).mpr hjlen
  · rw [if_neg hk] at hi ⊢
    exact pair_mem_drop (argsort_nodup sims) hpair hi

/-- Every selected candidate has a similarity (in the sort preorder) at
least that of every unselected record. -/
lemma top_k_highest {sims : List SimVal} {k i j : ℕ}
    (hi : i ∈ top_k_indices sims k) (hjlen : j < sims.length)
    (hj : j ∉ top_k_indices sims k) : SimLeAt sims j i := by
  unfold top_k_indices takeLastSlice at hi hj
  rw [List.mem_reverse] at hi hj
  by_cases hk : k = 0
  · rw [if_pos hk] at hj
    exact absurd ((mem_argsort sims).mpr hjlen) hj
  · rw [if_neg hk] at hi hj
    have hsorted : (argsort sims).Pairwise (SimLeAt sims) :=
      List.sorted_insertionSort (SimLeAt sims) _
    have hjmem : j ∈ argsort sims := (mem_argsort sims).mpr hjlen
    set m := (argsort sims).length - k with hm
    have hjtake : j ∈ (argsort sims).take m := by
      rcases (List.mem_append.mp (by rw [List.take_append_drop m (argsort sims)]; exact hjmem)) with h | h
      · exact h
      · exact absurd h hj
    have hps := hsorted
    rw [← List.take_append_drop m (argsort sims)] at hps
    exact (List.pairwise_append.mp hps).2.2 j hjtake i hi

/-! ### C7: save-then-load round trip on one store -/

/-- C7: `save_to_file` followed by `load_from_file` restores every
record exactly — same texts, same timestamps, and the stored embedding
vectors verbatim: the loaded store equals the saved one whatever the
prior in-memory state was, and `load_from_file` takes no embedder, so
nothing is recomputed. -/
theorem save_load_roundtrip (s t : UtilityRAG) :
    UtilityRAG.load_from_file (some s.save_to_file) t = some s := rfl

/-! ### C9: the parallel-lists invariant -/

/-- C9: The three parallel lists of a `UtilityRAG` have equal
lengths: on construction, after every `add_memories` call (each kept
pair appends exactly one text, one embedding and one date), and after
every successful `load_from_file` of a blob written by
`save_to_file`. -/
theorem inv_preserved :
    UtilityRAG.init.inv ∧
    (∀ (embed : String → List ℚ) (s : UtilityRAG) (texts : List String)
      (dates : List ℤ), s.inv → (s.add_memories embed texts dates).inv) ∧
    (∀ s t s' : UtilityRAG,
      UtilityRAG.load_from_file (some s.save_to_file) t = some s' →
      s.inv → s'.inv) := by
  refine ⟨⟨rfl, rfl⟩, ?_, ?_⟩
  · intro embed s texts dates hs
    unfold UtilityRAG.add_memories
    generalize texts.zip dates = l
    induction l generalizing s with
    | nil => exact hs
    | cons p l ih =>
      rw [List.foldl_cons]
      exact ih _ ⟨by simp [UtilityRAG.addOne, hs.1], by simp [UtilityRAG.addOne, hs.2]⟩
  · intro s t s' h hs
    simp only [UtilityRAG.load_from_file, UtilityRAG.save_to_file,
      Option.some.injEq] at h
    subst h
    exact hs

/-- Witness for C9: a one-pair add to the fresh store keeps the three
lists at equal length. -/
theorem inv_preserved_witness :
    (UtilityRAG.add_memories (fun _ => [1]) UtilityRAG.init ["a"] [2]).inv :=
  inv_preserved.2.1 (fun _ => [1]) UtilityRAG.init ["a"] [2] ⟨rfl, rfl⟩

/-! ### C3: batch add with mismatched lengths -/

/-- C3, counterexample: The spec says `add_batch(["a","b"], [1])`
fails with `ArgumentError`; the code's `zip` silently truncates
instead: the call returns normally, having stored exactly the one pair
`("a", 1)`. -/
theorem add_batch_mismatch_counterexample :
    UtilityRAG.add_memories (fun _ => [1]) UtilityRAG.init ["a", "b"] [1] =
      ⟨["a"], [[1]], [1]⟩ := rfl

/-- C3, amended: `add_memories` never fails on a length mismatch:
it is the in-order sequence of single adds over the zipped pairs, of
which there are exactly `min texts.length dates.length` — the
unmatched tail is dropped silently; when the lengths are equal, every
pair is processed. -/
theorem add_batch_amended (embed : String → List ℚ) (s : UtilityRAG)
    (texts : List String) (dates : List ℤ) :
    s.add_memories embed texts dates =
      (texts.zip dates).foldl (fun st p => st.addOne embed p.1 p.2) s ∧
    (texts.zip dates).length = min texts.length dates.length ∧
    (s.add_memories embed texts dates).memories =
      s.memories ++ (texts.zip dates).map Prod.fst := by
  refine ⟨rfl, List.length_zip _ _, ?_⟩
  unfold UtilityRAG.add_memories
  generalize texts.zip dates = l
  induction l generalizing s with
  | nil => simp
  | cons p l ih =>
    rw [List.foldl_cons, List.map_cons]
    rw [ih]
    simp [UtilityRAG.addOne]

/-! ### C5: LMRRAG.load_from_file on a partial directory -/

/-- C5, counterexample: Loading a directory whose `facts.pkl` is
readable but whose `reflections.pkl` is missing returns `false`, yet
does NOT leave the in-memory state untouched: the facts layer has
already been overwritten by the time the second read raises. -/
theorem lmr_load_not_atomic_counterexample :
    (LMRRAG.init.load_from_file ⟨some ⟨["x"], [[1]], [5]⟩, none, none⟩).2 = false ∧
    (LMRRAG.init.load_from_file ⟨some ⟨["x"], [[1]], [5]⟩, none, none⟩).1.facts ≠
      LMRRAG.init.facts := by
  constructor
  · rfl
  · intro h
    have : (⟨["x"], [[1]], [5]⟩ : UtilityRAG).memories = ([] : List String) :=
      congrArg UtilityRAG.memories h
    simp at this

/-- C5, amended: `load_from_file` returns `false` exactly when one
of the three blobs is missing or unreadable, but it is not atomic: the
facts layer is overwritten whenever `facts.pkl` alone is readable
(and likewise each later layer once all earlier reads succeeded);
only a failure of the very first read leaves the state untouched. -/
theorem lmr_load_amended (m : LMRRAG) (d : RagDir) :
    ((m.load_from_file d).2 = false ↔
      d.facts_pkl = none ∨ d.reflections_pkl = none ∨
        d.deep_reflections_pkl = none) ∧
    (∀ f : StoreData, d.facts_pkl = some f →
      (m.load_from_file d).1.facts =
        ⟨f.memories, f.memory_embeddings, f.memory_dates⟩) ∧
    (d.facts_pkl = none → (m.load_from_file d).1 = m) := by
  obtain ⟨fp, rp, dp⟩ := d
  cases fp <;> cases rp <;> cases dp <;>
    simp [LMRRAG.load_from_file, UtilityRAG.load_from_file]

/-- Witness for the amended C5: at the counterexample directory the
equivalence and the overwrite description evaluate as stated. -/
theorem lmr_load_amended_witness :
    ((LMRRAG.init.load_from_file ⟨some ⟨["x"], [[1]], [5]⟩, none, none⟩).2 = false ↔
      (some ⟨["x"], [[1]], [5]⟩ : Option StoreData) = none ∨
        (none : Option StoreData) = none ∨ (none : Option StoreData) = none) ∧
    (LMRRAG.init.load_from_file ⟨some ⟨["x"], [[1]], [5]⟩, none, none⟩).1.facts =
      ⟨["x"], [[1]], [5]⟩ :=
  ⟨(lmr_load_amended LMRRAG.init ⟨some ⟨["x"], [[1]], [5]⟩, none, none⟩).1,
    (lmr_load_amended LMRRAG.init ⟨some ⟨["x"], [[1]], [5]⟩, none, none⟩).2.1
      ⟨["x"], [[1]], [5]⟩ rfl⟩

/-! ### C8: load-then-save round trip on a LayeredMemory directory -/

/-- C8: If `load_from_file` on a persisted directory succeeds,
immediately saving the loaded state to the same path writes exactly
the same three blobs back (pickling the same lists is deterministic,
so blob equality is byte equality). -/
theorem lmr_load_save_roundtrip (m m' : LMRRAG) (d : RagDir)
    (h : m.load_from_file d = (m', true)) : m'.save_to_file = d := by
  obtain ⟨fp, rp, dp⟩ := d
  cases fp <;> cases rp <;> cases dp <;>
    simp only [LMRRAG.load_from_file, UtilityRAG.load_from_file, Prod.mk.injEq,
      Bool.false_eq_true, and_false] at h
  · obtain ⟨hm, -⟩ := h
    subst hm
    rfl

/-- Witness for C8: a successful load of the directory holding three
empty blobs, re-saved, gives back that directory. -/
theorem lmr_load_save_roundtrip_witness :
    (LMRRAG.init.load_from_file ⟨some ⟨[], [], []⟩, some ⟨[], [], []⟩,
        some ⟨[], [], []⟩⟩).1.save_to_file =
      ⟨some ⟨[], [], []⟩, some ⟨[], [], []⟩, some ⟨[], [], []⟩⟩ :=
  lmr_load_save_roundtrip LMRRAG.init LMRRAG.init
    ⟨some ⟨[], [], []⟩, some ⟨[], [], []⟩, some ⟨[], [], []⟩⟩ rfl

/-! ### C6: the resume short-circuit of Agent.reflect -/

/-- C6: If both `LMRRAG.load_from_file` calls of the resume check
succeed (and the two description files written by the completed
session are present, as they are for any session that reached the
persisting step), `Agent.reflect` runs none of the generation phases —
no extraction, no memory additions, no deep reflection, no description
update, no save — and returns the previously persisted transcript
path; if either load fails, every phase runs. -/
theorem reflect_resume_short_circuit (self_rag counterpart_rag : LMRRAG)
    (ds dc : RagDir) (sdesc cdesc : String) (output_dir name : String)
    (date_int : ℤ) :
    ((self_rag.load_from_file ds).2 = true →
      (counterpart_rag.load_from_file dc).2 = true →
      Agent.reflect self_rag counterpart_rag ds dc (some sdesc) (some cdesc)
          output_dir name date_int =
        some (transcriptJsonPath output_dir name date_int,
          ⟨false, false, false, false, false⟩)) ∧
    (∀ fs fc : Option String,
      (self_rag.load_from_file ds).2 = false ∨
        (counterpart_rag.load_from_file dc).2 = false →
      Agent.reflect self_rag counterpart_rag ds dc fs fc
          output_dir name date_int =
        some (transcriptJsonPath output_dir name date_int,
          ⟨true, true, true, true, true⟩)) := by
  constructor
  · intro h1 h2
    unfold Agent.reflect
    rw [h1, h2]
    rfl
  · intro fs fc h
    unfold Agent.reflect
    rcases h with h | h <;> rw [h] <;> simp

/-- Witness for C6: both directories hold the three blobs of a freshly
persisted empty LayeredMemory, so both loads succeed and the call
short-circuits with no phase run. -/
theorem reflect_resume_short_circuit_witness :
    Agent.reflect LMRRAG.init LMRRAG.init LMRRAG.init.save_to_file
        LMRRAG.init.save_to_file (some "d") (some "d") "out" "alice" 3 =
      some (transcriptJsonPath "out" "alice" 3,
        ⟨false, false, false, false, false⟩) :=
  (reflect_resume_short_circuit LMRRAG.init LMRRAG.init _ _ "d" "d" "out"
    "alice" 3).1 rfl rfl

lemma getD_mem {l : List α} {i : ℕ} (h : i < l.length) (d : α) :
    l.getD i d ∈ l := by
  rw [List.getD_eq_getElem?_getD, List.getElem?_eq_getElem h]
  exact List.getElem_mem h

/-! ### C2: recency re-ranking of the candidate set -/

/-- C2: Among the `candidate_k` records chosen by similarity,
the returned `top_n` are those with the greatest timestamps: (1) no
returned record has a strictly smaller timestamp than a candidate the
call omits, (2) the returned sequence is ordered most-recent-first,
and (3) equal-timestamp records keep, in the returned sequence, the
relative order they had in the similarity-ranked candidate list. -/
theorem retrieval_recency_law (sims : List SimVal) (dates : List ℤ) (n k : ℕ) :
    (∀ i ∈ top_n_indices sims dates n k, ∀ j ∈ top_k_indices sims k,
      j ∉ top_n_indices sims dates n k → dates.getD j 0 ≤ dates.getD i 0) ∧
    (top_n_indices sims dates n k).Pairwise (DateGe dates) ∧
    (∀ i j : ℕ, [i, j] <+ top_k_indices sims k →
      dates.getD i 0 = dates.getD j 0 →
      j ∈ top_n_indices sims dates n k →
      [i, j] <+ top_n_indices sims dates n k) := by
  have htop : top_n_indices sims dates n k =
      ((top_k_indices sims k).insertionSort (DateGe dates)).take n := rfl
  set sorted := (top_k_indices sims k).insertionSort (DateGe dates) with hsdef
  have hsorted : sorted.Pairwise (DateGe dates) :=
    List.sorted_insertionSort (DateGe dates) _
  have hnodup : sorted.Nodup :=
    (List.perm_insertionSort (DateGe dates) _).symm.nodup (top_k_indices_nodup sims k)
  refine ⟨?_, ?_, ?_⟩
  · intro i hi j hj hjn
    rw [htop] at hi hjn
    have hjs : j ∈ sorted := (List.mem_insertionSort _).mpr hj
    have hjd : j ∈ sorted.drop n := by
      rcases List.mem_append.mp
          (by rw [List.take_append_drop n sorted]; exact hjs) with h | h
      · exact absurd h hjn
      · exact h
    have hps := hsorted
    rw [← List.take_append_drop n sorted] at hps
    exact (List.pairwise_append.mp hps).2.2 i hi j hjd
  · rw [htop]
    exact hsorted.sublist (List.take_sublist n sorted)
  · intro i j hpair hdeq hj
    rw [htop] at hj ⊢
    have hle : DateGe dates i j := le_of_eq hdeq.symm
    have hsub : [i, j] <+ sorted :=
      List.sublist_insertionSort (List.pairwise_pair.mpr hle) hpair
    exact pair_sublist_take hnodup hsub hj

/-- Witness for C2, on the spec's section-8 scenario of timestamps
`[1, 1, 2, 5, 5]` with all similarities equal, `top_n = 2`,
`candidate_k = 5`: index 4 is returned, index 2 is an omitted
candidate, and indeed its date 2 is at most the returned date 5. -/
theorem retrieval_recency_law_witness :
    (4 ∈ top_n_indices [⟨1, 1⟩, ⟨1, 1⟩, ⟨1, 1⟩, ⟨1, 1⟩, ⟨1, 1⟩] [1, 1, 2, 5, 5] 2 5) ∧
    (2 ∈ top_k_indices [⟨1, 1⟩, ⟨1, 1⟩, ⟨1, 1⟩, ⟨1, 1⟩, ⟨1, 1⟩] 5) ∧
    (2 ∉ top_n_indices [⟨1, 1⟩, ⟨1, 1⟩, ⟨1, 1⟩, ⟨1, 1⟩, ⟨1, 1⟩] [1, 1, 2, 5, 5] 2 5) ∧
    ([1, 1, 2, 5, 5] : List ℤ).getD 2 0 ≤ ([1, 1, 2, 5, 5] : List ℤ).getD 4 0 := by
  have h4 : 4 ∈ top_n_indices [⟨1, 1⟩, ⟨1, 1⟩, ⟨1, 1⟩, ⟨1, 1⟩, ⟨1, 1⟩]
      [1, 1, 2, 5, 5] 2 5 := by
    have hr : List.range 5 = [0, 1, 2, 3, 4] := rfl
    simp [top_n_indices, top_k_indices, argsort, takeLastSlice, hr,
      SimLeAt, SimVal.Le, SimVal.tier, DateGe]
  have h2k : 2 ∈ top_k_indices [⟨1, 1⟩, ⟨1, 1⟩, ⟨1, 1⟩, ⟨1, 1⟩, ⟨1, 1⟩] 5 := by
    have hr : List.range 5 = [0, 1, 2, 3, 4] := rfl
    simp [top_k_indices, argsort, takeLastSlice, hr, SimLeAt, SimVal.Le, SimVal.tier]
  have h2n : 2 ∉ top_n_indices [⟨1, 1⟩, ⟨1, 1⟩, ⟨1, 1⟩, ⟨1, 1⟩, ⟨1, 1⟩]
      [1, 1, 2, 5, 5] 2 5 := by
    have hr : List.range 5 = [0, 1, 2, 3, 4] := rfl
    simp [top_n_indices, top_k_indices, argsort, takeLastSlice, hr,
      SimLeAt, SimVal.Le, SimVal.tier, DateGe]
  exact ⟨h4, h2k, h2n,
    (retrieval_recency_law [⟨1, 1⟩, ⟨1, 1⟩, ⟨1, 1⟩, ⟨1, 1⟩, ⟨1, 1⟩]
      [1, 1, 2, 5, 5] 2 5).1 4 h4 2 h2k h2n⟩

/-! ### C10: retrieval is a pure, bounded read -/

/-- C10: A `retrieve_memories` call leaves the store unchanged,
returns at most `top_n` items, and every returned text is an element
of the stored memory sequence.  The length hypothesis is the
parallel-lists invariant maintained by every store operation (C9). -/
theorem retrieve_pure_and_bounded (embed : String → List ℚ) (s : UtilityRAG)
    (q : String) (n k : ℕ)
    (hinv : s.memories.length = s.memory_embeddings.length) :
    (s.retrieveCall embed q n k).1 = s ∧
    (s.retrieveCall embed q n k).2.length ≤ n ∧
    ∀ t ∈ (s.retrieveCall embed q n k).2, t ∈ s.memories := by
  refine ⟨rfl, ?_, ?_⟩
  · show (s.retrieve_memories embed q n k).length ≤ n
    unfold UtilityRAG.retrieve_memories
    split
    · simp
    · rw [List.length_map, top_n_indices, List.length_take]
      exact min_le_left _ _
  · intro t ht
    have ht' : t ∈ s.retrieve_memories embed q n k := ht
    unfold UtilityRAG.retrieve_memories at ht'
    split at ht'
    · simp at ht'
    · obtain ⟨idx, hidx, rfl⟩ := List.mem_map.mp ht'
      have hlt : idx < (s.memory_embeddings.map fun e => cosSim e (embed q)).length :=
        mem_top_k_lt (top_n_subset_top_k hidx)
      rw [List.length_map, ← hinv] at hlt
      exact getD_mem hlt ""

/-- Witness for C10 at a concrete two-record store. -/
theorem retrieve_pure_and_bounded_witness :
    ((⟨["a", "b"], [[1], [0]], [1, 2]⟩ : UtilityRAG).retrieveCall
        (fun _ => [1]) "q" 1 2).1 = ⟨["a", "b"], [[1], [0]], [1, 2]⟩ ∧
    ((⟨["a", "b"], [[1], [0]], [1, 2]⟩ : UtilityRAG).retrieveCall
        (fun _ => [1]) "q" 1 2).2.length ≤ 1 ∧
    ∀ t ∈ ((⟨["a", "b"], [[1], [0]], [1, 2]⟩ : UtilityRAG).retrieveCall
        (fun _ => [1]) "q" 1 2).2, t ∈ (["a", "b"] : List String) :=
  retrieve_pure_and_bounded (fun _ => [1]) ⟨["a", "b"], [[1], [0]], [1, 2]⟩
    "q" 1 2 rfl

/-! ### C4: no guard on a zero-norm denominator -/

lemma dot_self_nonneg (v : List ℚ) : 0 ≤ dot v v := by
  induction v with
  | nil => simp [dot]
  | cons a as ih =>
    simp only [dot]
    exact add_nonneg (mul_self_nonneg a) ih

lemma eq_zero_of_dot_self_eq_zero {v : List ℚ} (h : dot v v = 0) :
    ∀ x ∈ v, x = 0 := by
  induction v with
  | nil => simp
  | cons a as ih =>
    simp only [dot] at h
    have ha : a * a = 0 := by
      have h1 := dot_self_nonneg as
      have h2 := mul_self_nonneg a
      linarith
    have has : dot as as = 0 := by linarith [mul_self_nonneg a, dot_self_nonneg as]
    intro x hx
    rcases List.mem_cons.mp hx with rfl | hx
    · exact mul_self_eq_zero.mp ha
    · exact ih has x hx

lemma dot_eq_zero_left {a : List ℚ} (b : List ℚ) (h : ∀ x ∈ a, x = 0) :
    dot a b = 0 := by
  induction a generalizing b with
  | nil => cases b <;> rfl
  | cons x xs ih =>
    cases b with
    | nil => rfl
    | cons y ys =>
      simp only [dot]
      rw [h x (List.mem_cons_self x xs), ih ys fun z hz => h z (List.mem_cons_of_mem x hz)]
      ring

lemma dot_eq_zero_right (a : List ℚ) {b : List ℚ} (h : ∀ x ∈ b, x = 0) :
    dot a b = 0 := by
  induction a generalizing b with
  | nil => cases b <;> rfl
  | cons x xs ih =>
    cases b with
    | nil => rfl
    | cons y ys =>
      simp only [dot]
      rw [h y (List.mem_cons_self y ys), ih fun z hz => h z (List.mem_cons_of_mem y hz)]
      ring

/-- C4, counterexample: The similarity computation has no
zero-vector guard.  On a store holding a zero-embedding record and a
perfectly matching record, the code returns the zero-embedding record
(its `0/0 = NaN` similarity sorts above every finite value in
`np.argsort`), while the spec's guarded similarity (`0` for a
zero-norm denominator) returns the matching record. -/
theorem zero_norm_counterexample :
    UtilityRAG.retrieve_memories (fun t => if t = "zero" then [0, 0] else [1, 0])
        (UtilityRAG.add_memories (fun t => if t = "zero" then [0, 0] else [1, 0])
          UtilityRAG.init ["zero", "match"] [0, 0]) "q" 1 1 = ["zero"] ∧
    UtilityRAG.retrieve_memories_guarded (fun t => if t = "zero" then [0, 0] else [1, 0])
        (UtilityRAG.add_memories (fun t => if t = "zero" then [0, 0] else [1, 0])
          UtilityRAG.init ["zero", "match"] [0, 0]) "q" 1 1 = ["match"] := by
  have hstore : UtilityRAG.add_memories (fun t => if t = "zero" then [0, 0] else [1, 0])
      UtilityRAG.init ["zero", "match"] [0, 0] =
      ⟨["zero", "match"], [[0, 0], [1, 0]], [0, 0]⟩ := rfl
  have hr : List.range 2 = [0, 1] := rfl
  rw [hstore]
  constructor
  · simp [UtilityRAG.retrieve_memories, top_n_indices, top_k_indices, argsort,
      takeLastSlice, hr, SimLeAt, SimVal.Le, SimVal.tier, DateGe, cosSim, dot, normSq]
  · simp [UtilityRAG.retrieve_memories_guarded, top_n_indices, top_k_indices, argsort,
      takeLastSlice, hr, SimLeAt, SimVal.Le, SimVal.tier, DateGe, cosSimGuarded,
      dot, normSq]

/-- C4, amended: The cosine computation is NOT guarded: whenever
the product of norms in the denominator is zero, the dot product is
forced to zero too, so the computed similarity is IEEE `0/0` — NaN,
not `0`.  No exception is raised (the model stays total), and the NaN
ranks strictly ABOVE every similarity with a nonzero denominator in
the argsort order, so zero-vector records are preferentially kept as
candidates. -/
theorem zero_norm_amended (e q : List ℚ) (h : normSq e * normSq q = 0) :
    cosSim e q = ⟨0, 0⟩ ∧ (cosSim e q).tier = 2 ∧
    ∀ e' q' : List ℚ, normSq e' * normSq q' ≠ 0 →
      SimVal.Le (cosSim e' q') (cosSim e q) ∧
      ¬SimVal.Le (cosSim e q) (cosSim e' q') := by
  have hdot : dot e q = 0 := by
    rcases mul_eq_zero.mp h with h0 | h0
    · exact dot_eq_zero_left q (eq_zero_of_dot_self_eq_zero h0)
    · exact dot_eq_zero_right e (eq_zero_of_dot_self_eq_zero h0)
  have hcos : cosSim e q = ⟨0, 0⟩ := by
    unfold cosSim
    rw [hdot, h]
  have htier : (cosSim e q).tier = 2 := by
    rw [hcos]
    simp [SimVal.tier]
  refine ⟨hcos, htier, ?_⟩
  intro e' q' h'
  have hpos : 0 < normSq e' * normSq q' :=
    lt_of_le_of_ne (mul_nonneg (dot_self_nonneg e') (dot_self_nonneg q'))
      (Ne.symm h')
  have htier' : (cosSim e' q').tier = 0 := by
    unfold cosSim SimVal.tier
    simp only
    rw [if_neg (by exact not_lt.mpr hpos.le), if_neg (by exact ne_of_gt hpos)]
  constructor
  · exact Or.inl (by rw [htier, htier']; norm_num)
  · rintro (hlt | ⟨heq, -⟩)
    · rw [htier, htier'] at hlt
      omega
    · rw [htier, htier'] at heq
      omega

/-- Witness for the amended C4: the zero vector `[0]` against query
`[1]` has a zero norm product; its similarity is the NaN pair `⟨0, 0⟩`
and it sorts strictly above the finite similarity of `[1]` vs `[1]`. -/
theorem zero_norm_amended_witness :
    cosSim [(0 : ℚ)] [1] = ⟨0, 0⟩ ∧
    SimVal.Le (cosSim [(1 : ℚ)] [1]) (cosSim [(0 : ℚ)] [1]) := by
  have h := zero_norm_amended [(0 : ℚ)] [1] (by norm_num [normSq, dot])
  exact ⟨h.1, (h.2.2 [1] [1] (by norm_num [normSq, dot])).1⟩

/-! ### C1: tie-breaking of the similarity selection -/

/-- C1, counterexample: On the spec's section-8 scenario — records
`("likes hiking", 0)`, `("got a new job", 3)`, `("moved to New
Paltz", 3)`, `("enjoys biographies", 0)` with "got a new job" and
"moved to New Paltz" equally and maximally similar to "career
update" — `retrieve("career update", top_n=1, candidate_k=4)` returns
the LATER-inserted of the two tied records, `["moved to New Paltz"]`,
not the earlier-inserted `["got a new job"]` the claim predicts.
Moreover the earlier-inserted of two equally-similar records is not
preferred for candidate membership either: with two tied records and
`candidate_k = 1`, the candidate set is `[1]`, the later index. -/
theorem tie_break_counterexample :
    UtilityRAG.retrieve_memories
        (fun t => if t = "likes hiking" ∨ t = "enjoys biographies" then [0, 1] else [1, 0])
        (UtilityRAG.add_memories
          (fun t => if t = "likes hiking" ∨ t = "enjoys biographies" then [0, 1] else [1, 0])
          UtilityRAG.init
          ["likes hiking", "got a new job", "moved to New Paltz", "enjoys biographies"]
          [0, 3, 3, 0])
        "career update" 1 4 = ["moved to New Paltz"] ∧
    top_k_indices [⟨1, 1⟩, ⟨1, 1⟩] 1 = [1] := by
  have hstore : UtilityRAG.add_memories
      (fun t => if t = "likes hiking" ∨ t = "enjoys biographies" then [0, 1] else [1, 0])
      UtilityRAG.init
      ["likes hiking", "got a new job", "moved to New Paltz", "enjoys biographies"]
      [0, 3, 3, 0] =
      ⟨["likes hiking", "got a new job", "moved to New Paltz", "enjoys biographies"],
        [[0, 1], [1, 0], [1, 0], [0, 1]], [0, 3, 3, 0]⟩ := rfl
  have hr : List.range 4 = [0, 1, 2, 3] := rfl
  have hr2 : List.range 2 = [0, 1] := rfl
  rw [hstore]
  constructor
  · simp [UtilityRAG.retrieve_memories, top_n_indices, top_k_indices, argsort,
      takeLastSlice, hr, SimLeAt, SimVal.Le, SimVal.tier, DateGe, cosSim, dot, normSq]
  · simp [top_k_indices, argsort, takeLastSlice, hr2, SimLeAt, SimVal.Le, SimVal.tier]

/-- C1, amended: The `candidate_k` records of highest similarity
are selected, but equal similarities tie-break in favour of LATER
insertion: the ascending stable argsort puts the earlier index first
and the slice `[-k:]` keeps the last `k` entries.  (1) Whenever two
records are equally similar, selection of the earlier-inserted one
implies selection of the later-inserted one; (2) every selected
candidate's similarity is at least (in numpy's sort order) that of
every unselected record; (3) on the section-8 scenario the
later-inserted of the two tied records is returned. -/
theorem tie_break_amended :
    (∀ (sims : List SimVal) (k i j : ℕ), i < j → j < sims.length →
      sims.getD i ⟨0, 0⟩ = sims.getD j ⟨0, 0⟩ →
      i ∈ top_k_indices sims k → j ∈ top_k_indices sims k) ∧
    (∀ (sims : List SimVal) (k i j : ℕ), i ∈ top_k_indices sims k →
      j < sims.length → j ∉ top_k_indices sims k → SimLeAt sims j i) ∧
    UtilityRAG.retrieve_memories
        (fun t => if t = "likes hiking" ∨ t = "enjoys biographies" then [0, 1] else [1, 0])
        (UtilityRAG.add_memories
          (fun t => if t = "likes hiking" ∨ t = "enjoys biographies" then [0, 1] else [1, 0])
          UtilityRAG.init
          ["likes hiking", "got a new job", "moved to New Paltz", "enjoys biographies"]
          [0, 3, 3, 0])
        "career update" 1 4 = ["moved to New Paltz"] := by
  refine ⟨fun sims k i j hij hjlen heq hi => top_k_stable hij hjlen heq hi,
    fun sims k i j hi hjlen hj => top_k_highest hi hjlen hj, ?_⟩
  have hstore : UtilityRAG.add_memories
      (fun t => if t = "likes hiking" ∨ t = "enjoys biographies" then [0, 1] else [1, 0])
      UtilityRAG.init
      ["likes hiking", "got a new job", "moved to New Paltz", "enjoys biographies"]
      [0, 3, 3, 0] =
      ⟨["likes hiking", "got a new job", "moved to New Paltz", "enjoys biographies"],
        [[0, 1], [1, 0], [1, 0], [0, 1]], [0, 3, 3, 0]⟩ := rfl
  have hr : List.range 4 = [0, 1, 2, 3] := rfl
  rw [hstore]
  simp [UtilityRAG.retrieve_memories, top_n_indices, top_k_indices, argsort,
    takeLastSlice, hr, SimLeAt, SimVal.Le, SimVal.tier, DateGe, cosSim, dot, normSq]

/-- Witness for the amended C1: two equally-similar records, candidate
width 2 — the earlier index 0 is selected, hence so is the later
index 1. -/
theorem tie_break_amended_witness :
    1 ∈ top_k_indices [⟨1, 1⟩, ⟨1, 1⟩] 2 := by
  have hr2 : List.range 2 = [0, 1] := rfl
  refine tie_break_amended.1 [⟨1, 1⟩, ⟨1, 1⟩] 2 0 1 (by norm_num) (by norm_num) rfl ?_
  simp [top_k_indices, argsort, takeLastSlice, hr2, SimLeAt, SimVal.Le, SimVal.tier]

end AgenticRag
